import Mathlib

/-!
# Verification of `custom-app-rich-presence` (`src/main.rs`)

A shallow embedding of the core logic of the repository:

* the text layout block of `app_loop` (splitting a `display_name` over
  `details`/`state`, lines 276-302 of `src/main.rs`),
* the per-tick detection / presence-update logic of `app_loop`
  (lines 250-325),
* the target-list editor operations `add_process`, `remove_process`,
  `move_process`, `edit_process` (lines 119-204).

Rust strings are modelled as lists of characters (`RStr`), so that
`chars().count()` is `List.length` while byte-level operations such as
`String::split_off` are expressed through `Char.utf8Size`.  Functions that
can panic in Rust are modelled with `Option`, `none` standing for a panic.
-/

set_option autoImplicit false

namespace Carp

/-- Rust `String` / `&str`, modelled as its sequence of characters. -/
abbrev RStr := List Char

/-- Rust `str::trim`: drop leading and trailing whitespace characters. -/
def trimChars (s : RStr) : RStr :=
  ((s.dropWhile Char.isWhitespace).reverse.dropWhile Char.isWhitespace).reverse

/-- Accumulator-based worker for `str::split_whitespace`. -/
def wsplitAux : RStr → RStr → List RStr
  | [], acc => if acc.isEmpty then [] else [acc.reverse]
  | c :: cs, acc =>
    if c.isWhitespace then
      if acc.isEmpty then wsplitAux cs [] else acc.reverse :: wsplitAux cs []
    else
      wsplitAux cs (c :: acc)

/-- Rust `str::split_whitespace().collect::<Vec<&str>>()`: the maximal
whitespace-free nonempty substrings, in order. -/
def split_whitespace (s : RStr) : List RStr :=
  wsplitAux s []

/-- Rust `[&str]::join(" ")`: words joined by single spaces. -/
def joinWords : List RStr → RStr
  | [] => []
  | [w] => w
  | w :: w2 :: ws => w ++ ' ' :: joinWords (w2 :: ws)

/-- Rust `String::split_off(n)` where `n` counts BYTES of the UTF-8
encoding: returns the prefix holding exactly `n` bytes and the remainder,
or `none` (a panic) when `n` is past the end or not a character boundary. -/
def splitOffByte : RStr → Nat → Option (RStr × RStr)
  | cs, 0 => some ([], cs)
  | [], _ + 1 => none
  | c :: cs, n + 1 =>
    if c.utf8Size ≤ n + 1 then
      match splitOffByte cs (n + 1 - c.utf8Size) with
      | none => none
      | some (a, b) => some (c :: a, b)
    else
      none

/-- The word-accumulation loop of `app_loop` (lines 286-298 of
`src/main.rs`): `details` grows by `push(' '); push_str(word)` while the
character count stays at or under 35; at the first overflowing word the
remaining words are joined with single spaces into `state`. -/
def greedyAux : List RStr → RStr → RStr × RStr
  | [], details => (details, [])
  | w :: ws, details =>
    if details.length + w.length ≤ 35 then
      greedyAux ws (details ++ ' ' :: w)
    else
      (details, joinWords (w :: ws))

/-- The raw `details`/`state` strings computed by the layout block of
`app_loop` (lines 273-302 of `src/main.rs`), before the `trim()` calls at
the use sites.  `none` models the panic of `split_off` at a non-boundary
byte index. -/
def layoutRaw (display : RStr) : Option (RStr × RStr) :=
  if 35 < display.length then
    let words := split_whitespace display
    if words.length ≤ 1 ∨ 35 < (words.headD []).length then
      match splitOffByte display 35 with
      | none => none
      | some (a, b) => some (a, b)
    else
      some (greedyAux words [])
  else
    some (display, [])

/-- The `LayoutResult`: the two trimmed lines finally handed to the activity
(`details.trim()` at line 311, `state.trim()` at line 315). -/
structure LayoutResult where
  line1 : RStr
  line2 : RStr
  deriving DecidableEq, Repr

/-- The layout function with both lines trimmed, as they are sent. -/
def layout (display : RStr) : Option LayoutResult :=
  (layoutRaw display).map fun p => ⟨trimChars p.1, trimChars p.2⟩

/-- Struct `Target` (lines 101-106 of `src/main.rs`). -/
structure Target where
  process_name : RStr
  display_name : RStr
  image : RStr
  deriving DecidableEq, Repr

/-- Struct `Config` (lines 95-99 of `src/main.rs`). -/
structure Config where
  client_id : Nat
  targets : List Target
  deriving DecidableEq, Repr

/-! ## The detection / presence logic of `app_loop` (lines 250-325) -/

/-- The priority scan inside the tick of `app_loop`: walk the target list
in order and return the index of the first target whose process is
running. -/
def resolveAux (ex : RStr → Bool) : List Target → Nat → Option Nat
  | [], _ => none
  | t :: ts, i => if ex t.process_name then some i else resolveAux ex ts (i + 1)

/-- The per-tick priority resolution: index of the first target whose
`process_name` names a running process, `none` when there is none. -/
def resolve (targets : List Target) (ex : RStr → Bool) : Option Nat :=
  resolveAux ex targets 0

/-- A call made to the presence client during a tick:
`set_activity` (line 318) or `clear_activity` (line 259). -/
inductive Action where
  /-- Call `set_activity` with the given details, optional state, large image
  and start timestamp. -/
  | update (details : RStr) (state : Option RStr) (image : RStr) (start : Int)
  /-- Call `clear_activity`. -/
  | clear
  deriving DecidableEq, Repr

/-- Observable outcome of one tick: the client call made (if any) and the
value of `last_detected_process` after the tick. -/
structure TickResult where
  action : Option Action
  last : RStr
  deriving DecidableEq, Repr

/-- The body of the `for (index, target)` loop of `app_loop`
(lines 253-321 of `src/main.rs`), one tick.  `clearOk` / `setOk` inject
the results of the `clear_activity` / `set_activity` calls, whose `Err`
case is met with `.unwrap()` in the source: `none` models that panic (as
well as the `split_off` panic inside the layout block). -/
def tickAux (clearOk setOk : Bool) (ex : RStr → Bool) (now : Int) (len : Nat) :
    List Target → Nat → RStr → Option TickResult
  | [], _, last => some ⟨none, last⟩
  | t :: ts, i, last =>
    if ex t.process_name = false then
      if i = len - 1 ∧ last ≠ "None".data then
        if clearOk then some ⟨some .clear, "None".data⟩ else none
      else
        tickAux clearOk setOk ex now len ts (i + 1) last
    else if last = t.process_name then
      some ⟨none, last⟩
    else
      match layoutRaw t.display_name with
      | none => none
      | some (details, state) =>
        if setOk then
          some ⟨some (.update (trimChars details)
                  (if state = [] then none else some (trimChars state))
                  t.image now),
                t.process_name⟩
        else
          none

/-- One tick of `app_loop` with injected client-call results. -/
def app_tick (clearOk setOk : Bool) (targets : List Target) (ex : RStr → Bool)
    (now : Int) (last : RStr) : Option TickResult :=
  tickAux clearOk setOk ex now targets.length targets 0 last

/-- One tick of `app_loop` when both client calls succeed. -/
def tick (targets : List Target) (ex : RStr → Bool) (now : Int) (last : RStr) :
    Option TickResult :=
  app_tick true true targets ex now last

/-! ## The target list editor (lines 108-204) -/

/-- Function `get_process_index` (lines 108-117): position of a process in the
target list, or the not-found error. -/
def get_process_index (targets : List Target) (process : RStr) : Except String Nat :=
  match targets.findIdx? (fun t => t.process_name = process) with
  | none => Except.error ("That process does not exist in the target list")
  | some index => Except.ok index

/-- Rust `Vec::insert`: insert at position `i`, shifting the suffix right.
Defined for `i ≤ l.length` exactly as in Rust (callers guard the panic
case separately). -/
def vecInsert {α : Type} : List α → Nat → α → List α
  | l, 0, a => a :: l
  | [], _ + 1, a => [a]
  | x :: l, i + 1, a => x :: vecInsert l i a

/-- Rust `Vec::remove(i)` for a valid index: delete the element at `i`. -/
def vecRemove {α : Type} : List α → Nat → List α
  | [], _ => []
  | _ :: l, 0 => l
  | x :: l, i + 1 => x :: vecRemove l i

/-- Replace the element at position `i` using `f` (models
`config.targets[index].field = value`). -/
def listModify {α : Type} (f : α → α) : List α → Nat → List α
  | [], _ => []
  | x :: l, 0 => f x :: l
  | x :: l, i + 1 => x :: listModify f l i

/-- The arguments of the `config add` subcommand (`CliConfigAdd`,
lines 387-407; `index` is a `u32`). -/
structure CliConfigAdd where
  display : RStr
  image : RStr
  index : Option Nat
  process : RStr
  deriving DecidableEq, Repr

/-- The arguments of the `config edit` subcommand (`CliConfigEdit`,
lines 409-418). -/
structure CliConfigEdit where
  process_edit : Option RStr
  display : Option RStr
  image : Option RStr
  deriving DecidableEq, Repr

/-- Enum `ConfigReorderOperation` (lines 435-439). -/
inductive ConfigReorderOperation where
  | Increase
  | Decrease
  | Set (target_index : Nat)
  deriving DecidableEq, Repr

/-- The value `2^32`, the modulus of Rust `u32` arithmetic. -/
def u32Mod : Nat := 4294967296

/-- Function `add_process` (lines 119-144 of `src/main.rs`).  The result pairs the
`Result<()>` with the configuration after the call.  The index branch
computes `index.clamp(0, config.targets.len() as u32 - 1) as usize` — the
subtraction is modelled with release-mode wrapping `u32` arithmetic (on an
empty list it wraps to `u32::MAX`; in a debug build it would already panic
there) — and `Vec::insert` panics (`none`) when the clamped index exceeds
the length. -/
def add_process (config : Config) (new_target : CliConfigAdd) :
    Option (Except String Unit × Config) :=
  if config.targets.any (fun t => t.process_name = new_target.process) then
    some (Except.error ("That process already exists in the target list"), config)
  else
    let target : Target :=
      ⟨new_target.process, new_target.display, new_target.image⟩
    match new_target.index with
    | some index =>
      let upper := (config.targets.length % u32Mod + u32Mod - 1) % u32Mod
      let clamped := min (max index 0) upper
      if clamped ≤ config.targets.length then
        some (Except.ok (), ⟨config.client_id, vecInsert config.targets clamped target⟩)
      else
        none
    | none =>
      some (Except.ok (), ⟨config.client_id, config.targets ++ [target]⟩)

/-- Function `remove_process` (lines 146-151). -/
def remove_process (config : Config) (process : RStr) :
    Except String Unit × Config :=
  match get_process_index config.targets process with
  | Except.error e => (Except.error e, config)
  | Except.ok index =>
    (Except.ok (), ⟨config.client_id, vecRemove config.targets index⟩)

/-- Function `move_process` (lines 153-178).  The `Increase` arm uses signed `i32`
intermediates in the source, modelled with `Int` and `Int.toNat`. -/
def move_process (config : Config) (process : RStr)
    (operation : ConfigReorderOperation) : Except String Unit × Config :=
  match get_process_index config.targets process with
  | Except.error e => (Except.error e, config)
  | Except.ok index =>
    let len := config.targets.length
    let new_index : Nat :=
      match operation with
      | ConfigReorderOperation.Decrease => min (index + 1) (len - 1)
      | ConfigReorderOperation.Increase =>
        (min (max ((index : Int) - 1) 0) ((len : Int) - 1)).toNat
      | ConfigReorderOperation.Set target_index => min target_index (len - 1)
    if new_index = index then
      (Except.ok (), config)
    else
      let target := config.targets.getD index ⟨[], [], []⟩
      (Except.ok (),
        ⟨config.client_id,
          vecInsert (vecRemove config.targets index) new_index target⟩)

/-- Function `edit_process` (lines 180-204).  The duplicate check for a new process
name happens before any field is written, and the three optional edits are
applied in source order. -/
def edit_process (config : Config) (process : RStr) (edits : CliConfigEdit) :
    Except String Unit × Config :=
  match get_process_index config.targets process with
  | Except.error e => (Except.error e, config)
  | Except.ok index =>
    match edits.process_edit with
    | some p =>
      if config.targets.any (fun t => t.process_name = p) then
        (Except.error ("That process already exists in the target list"), config)
      else
        let c1 : Config :=
          ⟨config.client_id,
            listModify (fun t => { t with process_name := p }) config.targets index⟩
        let c2 : Config :=
          match edits.display with
          | some d =>
            ⟨c1.client_id,
              listModify (fun t => { t with display_name := d }) c1.targets index⟩
          | none => c1
        let c3 : Config :=
          match edits.image with
          | some im =>
            ⟨c2.client_id,
              listModify (fun t => { t with image := im }) c2.targets index⟩
          | none => c2
        (Except.ok (), c3)
    | none =>
      let c2 : Config :=
        match edits.display with
        | some d =>
          ⟨config.client_id,
            listModify (fun t => { t with display_name := d }) config.targets index⟩
        | none => config
      let c3 : Config :=
        match edits.image with
        | some im =>
          ⟨c2.client_id,
            listModify (fun t => { t with image := im }) c2.targets index⟩
        | none => c2
      (Except.ok (), c3)

/-! ## Helper definitions for statements and witnesses -/

/-- The `details` accumulator after pushing each word of `ws` with `push(' '); push_str(w)`
starting from `d` (the loop accumulator of the greedy layout branch). -/
def pushAll (d : RStr) (ws : List RStr) : RStr :=
  ws.foldl (fun a w => a ++ ' ' :: w) d

/-- A word list is `wellFormed` when every word is nonempty and free of
whitespace characters (true of `split_whitespace` output). -/
def wellFormedWords (ws : List RStr) : Prop :=
  ∀ w ∈ ws, w ≠ [] ∧ ∀ c ∈ w, c.isWhitespace = false

/-- A sample target used to instantiate hypothesis-bearing theorems. -/
def demoTarget : Target :=
  ⟨"game".data, "My Game".data, "img".data⟩

/-- A two-element target list used to instantiate the resolver theorem. -/
def demoTargets : List Target :=
  [⟨"alpha".data, "Alpha".data, "one".data⟩, ⟨"beta".data, "Beta".data, "two".data⟩]

/-- A process-existence function under which only `beta` is running. -/
def demoExB : RStr → Bool :=
  fun s => s == "beta".data

/-- The tick outcome announcing `demoTarget` (used by a witness). -/
def demoUpdate : TickResult :=
  ⟨some (Action.update ("My Game".data) none ("img".data) 7), "game".data⟩

/-- A configuration with a single target `proc` (used by a witness). -/
def demoConfig : Config :=
  ⟨0, [⟨"proc".data, "Display".data, "img".data⟩]⟩

/-- An `Add` request colliding with `demoConfig`'s only entry. -/
def demoDupAdd : CliConfigAdd :=
  ⟨"Other".data, "pic".data, none, "proc".data⟩

/-! ## Lemmas about the priority scan -/

theorem resolveAux_le {ex : RStr → Bool} :
    ∀ {ts : List Target} {i k : Nat}, resolveAux ex ts i = some k → i ≤ k := by
  intro ts
  induction ts with
  | nil => intro i k h; simp [resolveAux] at h
  | cons t ts ih =>
    intro i k h
    simp only [resolveAux] at h
    by_cases he : ex t.process_name
    · simp [he] at h
      omega
    · simp [he] at h
      have := ih h
      omega

theorem resolveAux_spec {ex : RStr → Bool} :
    ∀ {ts : List Target} {i k : Nat}, resolveAux ex ts i = some k →
      ∃ t, ts[k - i]? = some t ∧ ex t.process_name = true ∧
        ∀ j u, j < k - i → ts[j]? = some u → ex u.process_name = false := by
  intro ts
  induction ts with
  | nil => intro i k h; simp [resolveAux] at h
  | cons t ts ih =>
    intro i k h
    simp only [resolveAux] at h
    by_cases he : ex t.process_name
    · simp [he] at h
      subst h
      refine ⟨t, by simp, he, ?_⟩
      intro j u hj
      omega
    · simp [he] at h
      have hik : i + 1 ≤ k := resolveAux_le h
      obtain ⟨u, hu, hexu, hprev⟩ := ih h
      have harith : k - i = (k - (i + 1)) + 1 := by omega
      refine ⟨u, ?_, hexu, ?_⟩
      · rw [harith]
        simpa using hu
      · intro j v hj hv
        match j with
        | 0 =>
          simp at hv
          rw [← hv]
          simpa using he
        | j + 1 =>
          simp at hv
          exact hprev j v (by omega) hv

theorem resolveAux_none {ex : RStr → Bool} :
    ∀ {ts : List Target} {i : Nat},
      resolveAux ex ts i = none ↔ ∀ t ∈ ts, ex t.process_name = false := by
  intro ts
  induction ts with
  | nil => intro i; simp [resolveAux]
  | cons t ts ih =>
    intro i
    simp only [resolveAux]
    by_cases he : ex t.process_name
    · simp [he]
    · simp only [if_neg he]
      rw [ih]
      constructor
      · intro h u hu
        rcases List.mem_cons.mp hu with hu | hu
        · rw [hu]; simpa using he
        · exact h u hu
      · intro h u hu
        exact h u (List.mem_cons_of_mem _ hu)

/-- C1: the per-tick resolution selects the index of the first target
(lowest index) whose `process_name` exists as a running process; it never
selects an index `i` when some `j < i` also has a running process, and it
selects none exactly when no target's process exists. -/
theorem c1_priority_resolver (targets : List Target) (ex : RStr → Bool) :
    (∀ i, resolve targets ex = some i →
      ∃ t, targets[i]? = some t ∧ ex t.process_name = true ∧
        ∀ j u, j < i → targets[j]? = some u → ex u.process_name = false) ∧
    (resolve targets ex = none ↔ ∀ t ∈ targets, ex t.process_name = false) := by
  constructor
  · intro i h
    have := @resolveAux_spec ex targets 0 i h
    simpa using this
  · exact resolveAux_none

/-- Witness for C1 at a concrete list whose second target is running. -/
theorem c1_priority_resolver_witness :
    ∃ t, demoTargets[1]? = some t ∧ demoExB t.process_name = true ∧
      ∀ j u, j < 1 → demoTargets[j]? = some u → demoExB u.process_name = false :=
  (c1_priority_resolver demoTargets demoExB).1 1 (by decide)

/-! ## Sentinel collision, crash and underflow evaluations -/

/-- C2 (failing input): with the loop in the cleared state
(`last_detected_process == "None"`, set at line 260 of `src/main.rs`) and
a running process literally named `None`, the resolver selects it, yet the
string comparison at line 266 matches the sentinel, so NO update is
emitted and the state never becomes announcing. -/
theorem c2_sentinel_collision_no_update :
    resolve [⟨"None".data, "Cool App".data, "img".data⟩] (fun _ => true) = some 0 ∧
    tick [⟨"None".data, "Cool App".data, "img".data⟩] (fun _ => true) 9 ("None".data) =
      some ⟨none, "None".data⟩ := by
  decide

/-- C6 (failing input): a 36-character display name of three-byte
characters reaches `split_off(35)` (line 284 of `src/main.rs`) with byte
index 35 inside a character, which panics — the layout computation is not
total. -/
theorem c6_layout_panics_on_multibyte :
    layout (List.replicate 36 '€') = none := by
  decide

/-- C7 (failing input): when `set_activity` fails while announcing a new
target, or `clear_activity` fails while clearing, the `.unwrap()` calls at
lines 318 and 259 of `src/main.rs` panic and the loop crashes (`none`)
instead of retrying on the next tick. -/
theorem c7_unwrap_crashes_loop :
    app_tick true false [demoTarget] (fun _ => true) 0 [] = none ∧
    app_tick false true [demoTarget] (fun _ => false) 0 ("other".data) = none := by
  decide

/-- C9 (failing input): `Add` with `insert_index = 1` on an empty target
list evaluates `config.targets.len() as u32 - 1` (line 136 of
`src/main.rs`), which underflows; with wrapping `u32` arithmetic the clamp
is a no-op and `Vec::insert(1, …)` panics on the empty vector (`none`) —
the target is not appended. -/
theorem c9_add_empty_list_panics :
    add_process ⟨0, []⟩ ⟨"Display".data, "img".data, some 1, "proc".data⟩ = none := by
  rfl

/-- C8 (counterexample): on the very first tick `last_detected_process`
is `""` (line 250 of `src/main.rs`), not the cleared sentinel `"None"`;
with no target process running the resolver yields none, yet the loop DOES
make a presence-service call (`clear_activity`), contradicting the claim
that no call is made when the machine starts idle. -/
theorem c8_first_tick_emits_clear :
    resolve [demoTarget] (fun _ => false) = none ∧
    tick [demoTarget] (fun _ => false) 0 [] = some ⟨some Action.clear, "None".data⟩ := by
  decide

/-! ## Lemmas about the tick -/

theorem tickAux_change_iff {co so : Bool} {ex : RStr → Bool} {now : Int} {len : Nat} :
    ∀ {ts : List Target} {i : Nat} {last : RStr} {r : TickResult},
      tickAux co so ex now len ts i last = some r →
      (r.action.isSome = true ↔ r.last ≠ last) := by
  intro ts
  induction ts with
  | nil =>
    intro i last r h
    simp only [tickAux, Option.some.injEq] at h
    rw [← h]
    simp
  | cons t ts ih =>
    intro i last r h
    simp only [tickAux] at h
    by_cases he : ex t.process_name = false
    · rw [if_pos he] at h
      by_cases hg : i = len - 1 ∧ last ≠ "None".data
      · rw [if_pos hg] at h
        cases co with
        | false => simp at h
        | true =>
          simp only [if_pos trivial, Option.some.injEq] at h
          rw [← h]
          simpa using Ne.symm hg.2
      · rw [if_neg hg] at h
        exact ih h
    · rw [if_neg he] at h
      by_cases hl : last = t.process_name
      · rw [if_pos hl] at h
        simp only [Option.some.injEq] at h
        rw [← h]
        simp
      · rw [if_neg hl] at h
        cases hlay : layoutRaw t.display_name with
        | none => rw [hlay] at h; simp at h
        | some p =>
          rw [hlay] at h
          cases so with
          | false => simp at h
          | true =>
            simp only [if_pos trivial, Option.some.injEq] at h
            rw [← h]
            simpa using Ne.symm hl

theorem tickAux_update_resolve {co so : Bool} {ex : RStr → Bool} {now : Int} {len : Nat} :
    ∀ {ts : List Target} {i : Nat} {last : RStr} {r : TickResult}
      {d : RStr} {st : Option RStr} {img : RStr} {t0 : Int},
      tickAux co so ex now len ts i last = some r →
      r.action = some (Action.update d st img t0) →
      ∃ k t, resolveAux ex ts i = some k ∧ ts[k - i]? = some t ∧
        ex t.process_name = true ∧ t.process_name ≠ last ∧ r.last = t.process_name := by
  intro ts
  induction ts with
  | nil =>
    intro i last r d st img t0 h ha
    simp only [tickAux, Option.some.injEq] at h
    rw [← h] at ha
    simp at ha
  | cons t ts ih =>
    intro i last r d st img t0 h ha
    simp only [tickAux] at h
    by_cases he : ex t.process_name = false
    · rw [if_pos he] at h
      by_cases hg : i = len - 1 ∧ last ≠ "None".data
      · rw [if_pos hg] at h
        cases co with
        | false => simp at h
        | true =>
          simp only [if_pos trivial, Option.some.injEq] at h
          rw [← h] at ha
          simp at ha
      · rw [if_neg hg] at h
        obtain ⟨k, u, hres, hget, hexu, hne, hlast⟩ := ih h ha
        have hik : i + 1 ≤ k := resolveAux_le hres
        refine ⟨k, u, ?_, ?_, hexu, hne, hlast⟩
        · simp only [resolveAux, he, if_neg]
          simpa [he] using hres
        · have harith : k - i = (k - (i + 1)) + 1 := by omega
          rw [harith]
          simpa using hget
    · rw [if_neg he] at h
      have hex : ex t.process_name = true := by
        cases hx : ex t.process_name with
        | false => exact absurd hx he
        | true => rfl
      by_cases hl : last = t.process_name
      · rw [if_pos hl] at h
        simp only [Option.some.injEq] at h
        rw [← h] at ha
        simp at ha
      · rw [if_neg hl] at h
        cases hlay : layoutRaw t.display_name with
        | none => rw [hlay] at h; simp at h
        | some p =>
          rw [hlay] at h
          cases so with
          | false => simp at h
          | true =>
            simp only [if_pos trivial, Option.some.injEq] at h
            refine ⟨i, t, ?_, by simp, hex, Ne.symm hl, by rw [← h]⟩
            simp [resolveAux, hex]

/-- C3: per tick, at most one presence-service call is made, a call is
made if and only if the announced identity (`last_detected_process`)
changes this tick, and an update is only emitted for a target selected by
the resolver whose process name differs from the previously announced
one. -/
theorem c3_one_call_iff_identity_change (targets : List Target) (ex : RStr → Bool)
    (now : Int) (last : RStr) (r : TickResult)
    (h : tick targets ex now last = some r) :
    (r.action.isSome = true ↔ r.last ≠ last) ∧
    (∀ d st img t0, r.action = some (Action.update d st img t0) →
      ∃ i t, resolve targets ex = some i ∧ targets[i]? = some t ∧
        ex t.process_name = true ∧ t.process_name ≠ last ∧ r.last = t.process_name) := by
  constructor
  · exact tickAux_change_iff h
  · intro d st img t0 ha
    obtain ⟨k, t, hres, hget, hexu, hne, hlast⟩ := tickAux_update_resolve h ha
    exact ⟨k, t, hres, by simpa using hget, hexu, hne, hlast⟩

/-- Witness for C3: a tick that announces `demoTarget` from the initial
state makes exactly one call, and it is an update for the resolved
target. -/
theorem c3_one_call_iff_identity_change_witness :
    (demoUpdate.action.isSome = true ↔ demoUpdate.last ≠ ([] : RStr)) ∧
    (∀ d st img t0, demoUpdate.action = some (Action.update d st img t0) →
      ∃ i t, resolve [demoTarget] (fun _ => true) = some i ∧ [demoTarget][i]? = some t ∧
        (fun _ => true) t.process_name = true ∧ t.process_name ≠ ([] : RStr) ∧
        demoUpdate.last = t.process_name) :=
  c3_one_call_iff_identity_change [demoTarget] (fun _ => true) 7 [] demoUpdate (by decide)

theorem tickAux_cleared_noop {co so : Bool} {ex : RStr → Bool} {now : Int} {len : Nat} :
    ∀ {ts : List Target} {i : Nat},
      (∀ t ∈ ts, ex t.process_name = false) →
      tickAux co so ex now len ts i ("None".data) = some ⟨none, "None".data⟩ := by
  intro ts
  induction ts with
  | nil => intro i _; simp [tickAux]
  | cons t ts ih =>
    intro i h
    have he : ex t.process_name = false := h t (List.mem_cons_self t ts)
    simp only [tickAux, if_pos he]
    have hg : ¬(i = len - 1 ∧ ("None".data : RStr) ≠ "None".data) := by
      intro hc
      exact hc.2 rfl
    rw [if_neg hg]
    exact ih fun u hu => h u (List.mem_cons_of_mem _ hu)

/-- C8 (amended): the machine starts in a distinct unset state
(`last_detected_process == ""`), not in the cleared state; on a tick where
no target's process is running, no action is emitted exactly when the
state is already the cleared sentinel `"None"` — on the very first such
tick (state `""`, non-empty target list) a `clear` call IS made.  This is
the part of the claim that holds: cleared state + resolver none is a
no-op. -/
theorem c8_cleared_state_noop (targets : List Target) (ex : RStr → Bool) (now : Int)
    (h : ∀ t ∈ targets, ex t.process_name = false) :
    tick targets ex now ("None".data) = some ⟨none, "None".data⟩ :=
  tickAux_cleared_noop h

/-- Witness for C8 (amended) at a concrete one-target list with no
running process. -/
theorem c8_cleared_state_noop_witness :
    tick [demoTarget] (fun _ => false) 4 ("None".data) = some ⟨none, "None".data⟩ :=
  c8_cleared_state_noop [demoTarget] (fun _ => false) 4 (by decide)

/-! ## Lemmas about the editor -/

/-- C10: each editor operation that fails (returns an error) leaves the
configuration exactly as it was — no partial mutation — and in particular
adding a duplicate `process_name` fails with the duplicate-target error
and an unchanged configuration. -/
theorem c10_fail_leaves_config_unchanged (config : Config) (nt : CliConfigAdd)
    (procR procM procE : RStr) (op : ConfigReorderOperation) (edits : CliConfigEdit) :
    (∀ e c', add_process config nt = some (Except.error e, c') → c' = config) ∧
    (∀ e c', remove_process config procR = (Except.error e, c') → c' = config) ∧
    (∀ e c', move_process config procM op = (Except.error e, c') → c' = config) ∧
    (∀ e c', edit_process config procE edits = (Except.error e, c') → c' = config) ∧
    (config.targets.any (fun t => t.process_name = nt.process) = true →
      add_process config nt =
        some (Except.error ("That process already exists in the target list"), config)) := by
  refine ⟨?_, ?_, ?_, ?_, ?_⟩
  · intro e c' h
    unfold add_process at h
    split at h
    · simp at h
      exact h.2.symm
    · split at h
      · dsimp only at h
        split at h <;> simp at h
      · simp at h
  · intro e c' h
    unfold remove_process at h
    split at h
    · simp at h
      exact h.2.symm
    · simp at h
  · intro e c' h
    unfold move_process at h
    split at h
    · simp at h
      exact h.2.symm
    · dsimp only at h
      split at h <;> simp at h
  · intro e c' h
    unfold edit_process at h
    split at h
    · simp at h
      exact h.2.symm
    · split at h
      · split at h
        · simp at h
          exact h.2.symm
        · simp at h
      · simp at h
  · intro hdup
    unfold add_process
    rw [if_pos hdup]

/-- Witness for C10: adding `proc` to a configuration that already holds
`proc` errors out and returns the configuration unchanged. -/
theorem c10_fail_leaves_config_unchanged_witness :
    add_process demoConfig demoDupAdd =
      some (Except.error ("That process already exists in the target list"), demoConfig) :=
  (c10_fail_leaves_config_unchanged demoConfig demoDupAdd [] [] []
    ConfigReorderOperation.Increase ⟨none, none, none⟩).2.2.2.2 (by decide)

/-! ## Lemmas about trimming and word splitting -/

theorem dropWhile_eq_self_of_head {p : Char → Bool} {l : RStr}
    (h : ∀ c, l.head? = some c → p c = false) : l.dropWhile p = l := by
  cases l with
  | nil => rfl
  | cons c cs =>
    have := h c rfl
    simp [List.dropWhile_cons, this]

theorem trimChars_eq_self {s : RStr}
    (h1 : ∀ c, s.head? = some c → c.isWhitespace = false)
    (h2 : ∀ c, s.getLast? = some c → c.isWhitespace = false) :
    trimChars s = s := by
  unfold trimChars
  rw [dropWhile_eq_self_of_head h1]
  rw [dropWhile_eq_self_of_head (by simpa [List.head?_reverse] using h2)]
  exact List.reverse_reverse s

theorem trimChars_space_cons (s : RStr) : trimChars (' ' :: s) = trimChars s := by
  unfold trimChars
  have : (' ' :: s).dropWhile Char.isWhitespace = s.dropWhile Char.isWhitespace := by
    simp [List.dropWhile_cons]
  rw [this]

theorem trimChars_nil : trimChars [] = [] := rfl

theorem wsplitAux_wellFormed :
    ∀ (s : RStr) (acc : RStr), (∀ c ∈ acc, c.isWhitespace = false) →
      wellFormedWords (wsplitAux s acc) := by
  intro s
  induction s with
  | nil =>
    intro acc hacc
    by_cases ha : acc.isEmpty
    · simp [wsplitAux, ha, wellFormedWords]
    · simp only [wsplitAux, if_neg ha, wellFormedWords]
      intro w hw
      rcases List.mem_singleton.mp hw with rfl
      constructor
      · simpa using fun hx => ha (by simp [hx])
      · intro c hc
        exact hacc c (List.mem_reverse.mp hc)
  | cons c cs ih =>
    intro acc hacc
    by_cases hws : c.isWhitespace
    · by_cases ha : acc.isEmpty
      · simpa [wsplitAux, hws, ha] using ih [] (by simp)
      · simp only [wsplitAux, if_pos hws, if_neg ha, wellFormedWords]
        intro w hw
        rcases List.mem_cons.mp hw with rfl | hw
        · constructor
          · simpa using fun hx => ha (by simp [hx])
          · intro x hx
            exact hacc x (List.mem_reverse.mp hx)
        · exact ih [] (by simp) w hw
    · simp only [wsplitAux, if_neg hws]
      refine ih (c :: acc) ?_
      intro x hx
      rcases List.mem_cons.mp hx with rfl | hx
      · simpa using hws
      · exact hacc x hx

theorem split_whitespace_wellFormed (s : RStr) :
    wellFormedWords (split_whitespace s) :=
  wsplitAux_wellFormed s [] (by simp)

/-! ## Lemmas about joining words -/

theorem joinWords_ne_nil {w : RStr} {ws : List RStr} (hw : w ≠ []) :
    joinWords (w :: ws) ≠ [] := by
  cases ws with
  | nil => simpa [joinWords] using hw
  | cons w2 ws =>
    simp only [joinWords]
    intro hc
    rcases List.append_eq_nil.mp hc with ⟨h1, _⟩
    exact hw h1

theorem joinWords_head? {w : RStr} (ws : List RStr) (hw : w ≠ []) :
    (joinWords (w :: ws)).head? = w.head? := by
  cases ws with
  | nil => rfl
  | cons w2 ws =>
    simp only [joinWords]
    exact List.head?_append_of_ne_nil _ hw

theorem joinWords_getLast? :
    ∀ (ws : List RStr), (∀ w ∈ ws, w ≠ []) → ws ≠ [] →
      ∃ w, ws.getLast? = some w ∧ (joinWords ws).getLast? = w.getLast? := by
  intro ws
  induction ws with
  | nil => intro _ h; exact absurd rfl h
  | cons w ws ih =>
    intro hne _
    cases ws with
    | nil => exact ⟨w, rfl, rfl⟩
    | cons w2 ws2 =>
      obtain ⟨u, hu, hju⟩ := ih (fun x hx => hne x (List.mem_cons_of_mem _ hx)) (by simp)
      refine ⟨u, by rw [List.getLast?_cons_cons]; exact hu, ?_⟩
      have h2 : w2 ≠ [] := hne w2 (by simp)
      have hj2 : joinWords (w2 :: ws2) ≠ [] := joinWords_ne_nil h2
      calc (joinWords (w :: w2 :: ws2)).getLast?
          = (w ++ ' ' :: joinWords (w2 :: ws2)).getLast? := rfl
        _ = (' ' :: joinWords (w2 :: ws2)).getLast? :=
            List.getLast?_append_of_ne_nil _ (by simp)
        _ = (joinWords (w2 :: ws2)).getLast? := by
            cases hj : joinWords (w2 :: ws2) with
            | nil => exact absurd hj hj2
            | cons x xs => rw [List.getLast?_cons_cons]
        _ = u.getLast? := hju

theorem trimChars_joinWords {ws : List RStr} (h : wellFormedWords ws) :
    trimChars (joinWords ws) = joinWords ws := by
  cases ws with
  | nil => rfl
  | cons w ws2 =>
    have hw : w ≠ [] := (h w (by simp)).1
    refine trimChars_eq_self ?_ ?_
    · intro c hc
      rw [joinWords_head? ws2 hw] at hc
      have : c ∈ w := List.mem_of_mem_head? hc
      exact (h w (by simp)).2 c this
    · intro c hc
      obtain ⟨u, hu, hju⟩ :=
        joinWords_getLast? (w :: ws2) (fun x hx => (h x hx).1) (by simp)
      rw [hju] at hc
      have humem : u ∈ w :: ws2 := List.mem_of_mem_getLast? (by rw [hu]; rfl)
      have : c ∈ u := List.mem_of_mem_getLast? hc
      exact (h u humem).2 c this

/-! ## The greedy accumulation -/

theorem pushAll_nil (d : RStr) : pushAll d [] = d := rfl

theorem pushAll_cons (d : RStr) (w : RStr) (ws : List RStr) :
    pushAll d (w :: ws) = pushAll (d ++ ' ' :: w) ws := rfl

theorem pushAll_concat (d : RStr) (ws : List RStr) (w : RStr) :
    pushAll d (ws ++ [w]) = pushAll d ws ++ ' ' :: w := by
  unfold pushAll
  rw [List.foldl_append]
  rfl

theorem pushAll_eq_joinWords :
    ∀ (ws : List RStr) (d : RStr), ws ≠ [] → pushAll d ws = d ++ ' ' :: joinWords ws := by
  intro ws
  induction ws with
  | nil => intro d h; exact absurd rfl h
  | cons w ws ih =>
    intro d _
    cases ws with
    | nil => rfl
    | cons w2 ws2 =>
      rw [pushAll_cons, ih _ (by simp)]
      simp [joinWords, List.append_assoc]

theorem greedyAux_spec :
    ∀ (ws : List RStr) (d : RStr), ∃ k,
      k ≤ ws.length ∧
      greedyAux ws d = (pushAll d (ws.take k), joinWords (ws.drop k)) ∧
      (∀ j, j < k → (pushAll d (ws.take j)).length + (ws.getD j []).length ≤ 35) ∧
      (k < ws.length → 35 < (pushAll d (ws.take k)).length + (ws.getD k []).length) := by
  intro ws
  induction ws with
  | nil =>
    intro d
    exact ⟨0, by simp, by simp [greedyAux, pushAll, joinWords], by omega, by simp⟩
  | cons w ws ih =>
    intro d
    by_cases hfit : d.length + w.length ≤ 35
    · obtain ⟨k, hk, heq, hcond, hover⟩ := ih (d ++ ' ' :: w)
      refine ⟨k + 1, by simpa using hk, ?_, ?_, ?_⟩
      · simpa [greedyAux, hfit, pushAll_cons] using heq
      · intro j hj
        match j with
        | 0 => simpa [pushAll_nil] using hfit
        | j + 1 =>
          have := hcond j (by omega)
          simpa [pushAll_cons] using this
      · intro hlt
        have := hover (by simpa using hlt)
        simpa [pushAll_cons] using this
    · refine ⟨0, by simp, ?_, by omega, ?_⟩
      · simp [greedyAux, hfit, pushAll_nil]
      · intro _
        simpa [pushAll_nil] using hfit

theorem getD_zero_eq_headD (ws : List RStr) : ws.getD 0 [] = ws.headD [] := by
  cases ws <;> rfl

theorem getElem?_eq_some_getD {ws : List RStr} {n : Nat} (h : n < ws.length) :
    ws[n]? = some (ws.getD n []) := by
  simp [List.getElem?_eq_getElem h, List.getD_eq_getElem?_getD]

/-- C4: for a display name longer than 35 characters with at least two
whitespace-separated words whose first word fits in 35 characters, the
layout puts a greedily chosen nonempty prefix of whole words on `line1`
(at most 35 characters once joined by single spaces), puts the remaining
words joined by single spaces on `line2`, trims both lines, and preserves
the word sequence (`line1`'s words followed by `line2`'s words are exactly
the original words); the first word moved to `line2` is the first one
whose addition (with its joining space) would push `line1` past 35
characters. -/
theorem c4_greedy_word_layout (d : RStr)
    (h1 : 35 < d.length)
    (h2 : 2 ≤ (split_whitespace d).length)
    (h3 : ((split_whitespace d).headD []).length ≤ 35) :
    ∃ k, 1 ≤ k ∧ k ≤ (split_whitespace d).length ∧
      layout d = some ⟨joinWords ((split_whitespace d).take k),
                       joinWords ((split_whitespace d).drop k)⟩ ∧
      (joinWords ((split_whitespace d).take k)).length ≤ 35 ∧
      (k < (split_whitespace d).length →
        35 < (joinWords ((split_whitespace d).take k)).length + 1 +
          ((split_whitespace d).getD k []).length) := by
  have hcnd : ¬((split_whitespace d).length ≤ 1 ∨
      35 < ((split_whitespace d).headD []).length) := by
    push_neg
    exact ⟨by omega, h3⟩
  have hlr : layoutRaw d = some (greedyAux (split_whitespace d) []) := by
    unfold layoutRaw
    rw [if_pos h1]
    dsimp only
    rw [if_neg hcnd]
  obtain ⟨k, hk, heq, hcond, hover⟩ := greedyAux_spec (split_whitespace d) []
  have hk1 : 1 ≤ k := by
    by_contra hk0
    have hk0' : k = 0 := by omega
    have := hover (by omega)
    rw [hk0'] at this
    rw [List.take_zero, pushAll_nil, getD_zero_eq_headD] at this
    simp only [List.length_nil] at this
    omega
  have htake_ne : (split_whitespace d).take k ≠ [] := by
    have : 0 < ((split_whitespace d).take k).length := by
      rw [List.length_take]
      omega
    exact List.ne_nil_of_length_pos this
  have hpush : pushAll [] ((split_whitespace d).take k) =
      ' ' :: joinWords ((split_whitespace d).take k) := by
    rw [pushAll_eq_joinWords _ _ htake_ne]
    rfl
  have hwf_take : wellFormedWords ((split_whitespace d).take k) := by
    intro w hw
    exact split_whitespace_wellFormed d w (List.mem_of_mem_take hw)
  have hwf_drop : wellFormedWords ((split_whitespace d).drop k) := by
    intro w hw
    exact split_whitespace_wellFormed d w (List.mem_of_mem_drop hw)
  have hlay : layout d = some ⟨joinWords ((split_whitespace d).take k),
      joinWords ((split_whitespace d).drop k)⟩ := by
    unfold layout
    rw [hlr, heq]
    simp only [Option.map_some']
    rw [hpush, trimChars_space_cons, trimChars_joinWords hwf_take,
      trimChars_joinWords hwf_drop]
  have hksub : (split_whitespace d).take k =
      (split_whitespace d).take (k - 1) ++ [(split_whitespace d).getD (k - 1) []] := by
    have hx : k = (k - 1) + 1 := by omega
    rw [hx, List.take_succ, getElem?_eq_some_getD (by omega)]
    rfl
  have hlen1 : (pushAll [] ((split_whitespace d).take k)).length =
      1 + (joinWords ((split_whitespace d).take k)).length := by
    rw [hpush, List.length_cons]
    omega
  have hlen2 : (pushAll [] ((split_whitespace d).take k)).length =
      (pushAll [] ((split_whitespace d).take (k - 1))).length + 1 +
        ((split_whitespace d).getD (k - 1) []).length := by
    conv_lhs => rw [hksub]
    rw [pushAll_concat, List.length_append, List.length_cons]
    omega
  have hprev := hcond (k - 1) (by omega)
  refine ⟨k, hk1, hk, hlay, by omega, ?_⟩
  intro hlt
  have := hover hlt
  rw [hlen1] at this
  omega
/-- Witness for C4 at the spec's own example string. -/
theorem c4_greedy_word_layout_witness :
    ∃ k, 1 ≤ k ∧ k ≤ (split_whitespace ("Alpha Bravo Charlie Delta Echo Foxtrot Golf".data)).length ∧
      layout ("Alpha Bravo Charlie Delta Echo Foxtrot Golf".data) =
        some ⟨joinWords ((split_whitespace ("Alpha Bravo Charlie Delta Echo Foxtrot Golf".data)).take k),
              joinWords ((split_whitespace ("Alpha Bravo Charlie Delta Echo Foxtrot Golf".data)).drop k)⟩ ∧
      (joinWords ((split_whitespace ("Alpha Bravo Charlie Delta Echo Foxtrot Golf".data)).take k)).length ≤ 35 ∧
      (k < (split_whitespace ("Alpha Bravo Charlie Delta Echo Foxtrot Golf".data)).length →
        35 < (joinWords ((split_whitespace ("Alpha Bravo Charlie Delta Echo Foxtrot Golf".data)).take k)).length + 1 +
          ((split_whitespace ("Alpha Bravo Charlie Delta Echo Foxtrot Golf".data)).getD k []).length) :=
  c4_greedy_word_layout ("Alpha Bravo Charlie Delta Echo Foxtrot Golf".data)
    (by decide) (by decide) (by decide)

/-! ## The hard split -/

theorem splitOffByte_ascii :
    ∀ (n : Nat) (cs : RStr), n ≤ cs.length → (∀ c ∈ cs.take n, c.utf8Size = 1) →
      splitOffByte cs n = some (cs.take n, cs.drop n) := by
  intro n
  induction n with
  | zero => intro cs _ _; simp [splitOffByte]
  | succ n ih =>
    intro cs hle hsz
    cases cs with
    | nil => simp at hle
    | cons c cs =>
      have hc : c.utf8Size = 1 := hsz c (by simp [List.take_succ_cons])
      have hrec := ih cs (by simpa using hle)
        (fun x hx => hsz x (by simp [List.take_succ_cons, hx]))
      simp only [splitOffByte, hc]
      rw [if_pos (by omega)]
      have : n + 1 - 1 = n := by omega
      rw [this, hrec]
      simp [List.take_succ_cons, List.drop_succ_cons]

/-- C5 (amended): when the display name exceeds 35 characters and has at
most one whitespace-separated word (or a first word longer than 35
characters), the code performs a hard split at UTF-8 BYTE offset 35 of the
original string via `String::split_off` — when the first 35 characters are
all single-byte this coincides with a 35-character split — and both parts
are trimmed of surrounding whitespace before being used. -/
theorem c5_hard_split_ascii (d : RStr)
    (h1 : 35 < d.length)
    (h2 : (split_whitespace d).length ≤ 1 ∨ 35 < ((split_whitespace d).headD []).length)
    (h3 : ∀ c ∈ d.take 35, c.utf8Size = 1) :
    layout d = some ⟨trimChars (d.take 35), trimChars (d.drop 35)⟩ := by
  have hso : splitOffByte d 35 = some (d.take 35, d.drop 35) :=
    splitOffByte_ascii 35 d (by omega) h3
  have hlr : layoutRaw d = some (d.take 35, d.drop 35) := by
    unfold layoutRaw
    rw [if_pos h1]
    dsimp only
    rw [if_pos h2, hso]
  unfold layout
  rw [hlr]
  simp only [Option.map_some']

/-- Witness for C5 (amended) at a 40-character single-word ASCII name. -/
theorem c5_hard_split_ascii_witness :
    layout (List.replicate 40 'a') =
      some ⟨trimChars ((List.replicate 40 'a').take 35),
            trimChars ((List.replicate 40 'a').drop 35)⟩ :=
  c5_hard_split_ascii (List.replicate 40 'a') (by decide) (by decide) (by decide)

/-- C5 (counterexample): for the single-word display name of eleven
three-byte characters followed by 27 ASCII characters (38 characters,
60 bytes), the split falls at byte 35 = character 13, so `line1` is NOT
the first 35 characters of the string as the claim states. -/
theorem c5_byte_split_counterexample :
    35 < (List.replicate 11 '€' ++ List.replicate 27 'a' : RStr).length ∧
    (split_whitespace (List.replicate 11 '€' ++ List.replicate 27 'a')).length ≤ 1 ∧
    layout (List.replicate 11 '€' ++ List.replicate 27 'a') =
      some ⟨List.replicate 11 '€' ++ List.replicate 2 'a', List.replicate 25 'a'⟩ ∧
    (List.replicate 11 '€' ++ List.replicate 2 'a' : RStr) ≠
      (List.replicate 11 '€' ++ List.replicate 27 'a' : RStr).take 35 := by
  decide

end Carp

-- Sanity checks from the spec's testable properties (section 8).
example : Carp.layout ("Short title".data) = some ⟨"Short title".data, []⟩ := by
  decide
example :
    Carp.layout ("Alpha Bravo Charlie Delta Echo Foxtrot Golf".data) =
      some ⟨"Alpha Bravo Charlie Delta Echo".data, "Foxtrot Golf".data⟩ := by
  decide
example :
    Carp.layout ("Supercalifragilisticexpialidocious extra words".data) =
      some ⟨"Supercalifragilisticexpialidocious".data, "extra words".data⟩ := by
  decide
example :
    Carp.move_process ⟨0, [⟨"x".data, "X".data, "i".data⟩]⟩ ("x".data)
      Carp.ConfigReorderOperation.Increase =
      (Except.ok (), ⟨0, [⟨"x".data, "X".data, "i".data⟩]⟩) := by
  rfl
